import Mathlib

/-!
Verification of the multi-level embedded-document formatting orchestrator
(`packages/language-service/src/documentFeatures/format.ts`).

Shallow embedding conventions:
* Document text is a `List Char` (JS strings are sequences of code units; all
  scenarios are ASCII so Lean `Char` matches).
* LSP positions are represented by their character offsets.  All positions in
  the source flow through `offsetAt`/`positionAt`, which are inverse bijections,
  so ranges are modelled as offset pairs `(start, stop)`.
* Stateful registry access (`context.core.virtualFiles.updateSource`, the
  shared per-map `mappings` arrays mutated by `Array.prototype.sort`) is
  modelled by explicit state passing of a `RegState`.
* JS exceptions that the source deliberately catches are modelled by the
  `ProviderResult` sum; the one uncaught throw site (`TextDocument.applyEdits`
  on overlapping edits) is modelled with `Except`.
-/

abbrev Str := List Char

/-- JS `text.substring(a, b)` for `a ≤ b`: the characters at offsets `[a, b)`. -/
def subStr (s : Str) (a b : Nat) : Str :=
  (s.take b).drop a

/-- The part of the line containing offset `pos` that lies strictly before
`pos`; this is `document.getText({line: startPos.line, character: 0} .. startPos)`
from `getBaseIndent` in the source. -/
def lineTextBefore (text : Str) (pos : Nat) : Str :=
  ((text.take pos).reverse.takeWhile (fun c => c ≠ '\n')).reverse

/-- `getBaseIndent` from the source: the leading whitespace
(`startLineText.substring(0, startLineText.length - startLineText.trimStart().length)`)
of the line containing `pos`. -/
def getBaseIndent (text : Str) (pos : Nat) : Str :=
  (lineTextBefore text pos).takeWhile Char.isWhitespace

/-- JS `text.split(c)` for a single-character separator. -/
def splitOnChar (c : Char) : Str → List Str
  | [] => [[]]
  | x :: xs =>
    match splitOnChar c xs with
    | [] => [[]]
    | l :: ls => if x = c then [] :: l :: ls else (x :: l) :: ls

/-- A text edit: an offset range in one coordinate space plus replacement text. -/
structure TextEdit where
  range : Nat × Nat
  newText : Str
deriving DecidableEq, Repr

/-- One source-map mapping: an offset range in the outer ("source") document
and the corresponding range in the embedded ("generated") document. -/
structure Mapping where
  sourceRange : Nat × Nat
  generatedRange : Nat × Nat
deriving DecidableEq, Repr

/-- The `documentFormatting` capability: JS `undefined`, a boolean, or the
object form carrying the two newline-insertion flags. -/
inductive Cap where
  | undef : Cap
  | bool (b : Bool) : Cap
  | obj (insertFirstNewline insertFinalNewline : Bool) : Cap
deriving DecidableEq, Repr

/-- JS truthiness of a `documentFormatting` capability
(`!embedded.capabilities.documentFormatting`). -/
def Cap.truthy : Cap → Bool
  | .undef => false
  | .bool b => b
  | .obj _ _ => true

/-- `typeof data === 'object' ? data.insertFirstNewline : false`. -/
def Cap.insertFirst : Cap → Bool
  | .obj f _ => f
  | _ => false

/-- `typeof data === 'object' ? data.insertFinalNewline : false`. -/
def Cap.insertFinal : Cap → Bool
  | .obj _ l => l
  | _ => false

/-- A list map that also passes the element's index, starting from `i`. -/
def mapWithIndex (f : Nat → α → β) : Nat → List α → List β
  | _, [] => []
  | i, x :: xs => f i x :: mapWithIndex f (i + 1) xs

/-- The per-line re-indentation performed by the loop body of
`patchInterpolationIndent`: interior non-empty lines (`1 ≤ j ≤ k-2`) are
prefixed with `firstLineIndent + initialIndent`, and the final line with
`firstLineIndent` alone; the first line is left unchanged. -/
def reindentLine (base nested : Str) (k : Nat) (j : Nat) (line : Str) : Str :=
  if j = k - 1 then base ++ line
  else if j = 0 then line
  else if line ≠ [] then base ++ nested ++ line
  else line

/-- All lines of a split text re-indented as in the source's loop. -/
def reindentLines (base nested : Str) (lines : List Str) : List Str :=
  mapWithIndex (reindentLine base nested lines.length) 0 lines

/-- The optional first/final newline insertion of `patchInterpolationIndent`:
prepend a newline for the first mapping when `insertFirstNewline` and the text
does not already start with one; symmetrically append for the last mapping. -/
def insertedNewlines (oldText : Str) (iF iL : Bool) (i count : Nat) : Str :=
  let t1 := if iF ∧ i = 0 ∧ oldText.head? ≠ some '\n' then '\n' :: oldText else oldText
  if iL ∧ i = count - 1 ∧ t1.getLast? ≠ some '\n' then t1 ++ ['\n'] else t1

/-- The body of `patchInterpolationIndent`'s `for` loop for the `i`-th mapping:
skip when the current outer text of the mapping has no line break, otherwise
insert optional newlines, re-indent every line, and emit a replace edit over
the mapping's source range only when the text changed. -/
def patchMapping (docText : Str) (count : Nat) (initialIndent : Str)
    (iF iL : Bool) (i : Nat) (m : Mapping) : Option TextEdit :=
  let firstLineIndent := getBaseIndent docText m.sourceRange.1
  let oldText := subStr docText m.sourceRange.1 m.sourceRange.2
  if '\n' ∉ oldText then none
  else
    let t2 := insertedNewlines oldText iF iL i count
    let newText := List.intercalate ['\n'] (reindentLines firstLineIndent initialIndent (splitOnChar '\n' t2))
    if newText ≠ oldText then some ⟨(m.sourceRange.1, m.sourceRange.2), newText⟩ else none

/-- `patchInterpolationIndent` from the source, over the current outer
document text and one mapping array. -/
def patchInterpolationIndent (docText : Str) (mappings : List Mapping)
    (initialIndent : Str) (data : Cap) : List TextEdit :=
  (mapWithIndex
      (fun i m => patchMapping docText mappings.length initialIndent
        data.insertFirst data.insertFinal i m)
      0 mappings).filterMap id

/-- An immutable text snapshot: URI, language id, version, text. -/
structure TextDoc where
  uri : String
  languageId : String
  version : Nat
  text : Str

/-- A provider (plugin) call outcome: it may throw, signal "no opinion"
(JS `null`/`undefined`, also used when the plugin lacks the method), or
return a list of edits (possibly empty — `[]` is truthy in JS). -/
inductive ProviderResult where
  | throws (err : String) : ProviderResult
  | noEdits : ProviderResult
  | edits (es : List TextEdit) : ProviderResult
deriving DecidableEq, Repr

/-- A format provider.  `options` is fixed for the whole request, so it is
absorbed into the functions. -/
structure Plugin where
  format : TextDoc → Nat × Nat → ProviderResult
  formatOnType : TextDoc → Nat → String → ProviderResult

/-- The target handed to `tryFormat`: a range (plain formatting) or a
position together with the typed character (on-type formatting).  The source
couples these the same way (`ch !== undefined` exactly when a position was
passed). -/
inductive FmtTarget where
  | range (r : Nat × Nat) : FmtTarget
  | position (pos : Nat) (ch : String) : FmtTarget

/-- The outcome of asking one plugin for the given target. -/
def pluginResult (doc : TextDoc) (t : FmtTarget) (p : Plugin) : ProviderResult :=
  match t with
  | .range r => p.format doc r
  | .position pos ch => p.formatOnType doc pos ch

/-- `tryFormat` from the source: try plugins in order; a throwing plugin is
logged (`console.warn`, modelled by the accumulated string list) and skipped;
the first plugin returning a truthy (non-null) edit list wins. -/
def tryFormat (plugins : List Plugin) (doc : TextDoc) (t : FmtTarget) :
    List String × Option (List TextEdit) :=
  match plugins with
  | [] => ([], none)
  | p :: ps =>
    match pluginResult doc t p with
    | .throws e =>
      let r := tryFormat ps doc t
      (e :: r.1, r.2)
    | .noEdits => tryFormat ps doc t
    | .edits es => ([], some es)

/-- Modelled from the spec (§4.3 RangeMapper; the source-map implementation
lives outside `src/`): translate an outer-document offset to the embedded
document by the first mapping whose source side contains it. -/
def toGeneratedPosition (ms : List Mapping) (off : Nat) : Option Nat :=
  (ms.find? fun m => decide (m.sourceRange.1 ≤ off ∧ off ≤ m.sourceRange.2)).map
    fun m => m.generatedRange.1 + (off - m.sourceRange.1)

/-- Modelled from the spec (§4.3): a range translates when both endpoints do. -/
def toGeneratedRange (ms : List Mapping) (r : Nat × Nat) : Option (Nat × Nat) := do
  let s ← toGeneratedPosition ms r.1
  let e ← toGeneratedPosition ms r.2
  pure (s, e)

/-- Modelled from the spec (§4.3): the inverse translation, embedded offset to
outer offset. -/
def toSourcePosition (ms : List Mapping) (off : Nat) : Option Nat :=
  (ms.find? fun m => decide (m.generatedRange.1 ≤ off ∧ off ≤ m.generatedRange.2)).map
    fun m => m.sourceRange.1 + (off - m.generatedRange.1)

/-- Modelled from the spec (§4.3): inverse range translation. -/
def toSourceRange (ms : List Mapping) (r : Nat × Nat) : Option (Nat × Nat) := do
  let s ← toSourcePosition ms r.1
  let e ← toSourcePosition ms r.2
  pure (s, e)

/-- Ascending comparator of the source's first sort call
(`(a, b) => a.sourceRange[0] - b.sourceRange[0]`, a stable sort). -/
def srcLe (a b : Mapping) : Prop :=
  a.sourceRange.1 ≤ b.sourceRange.1

/-- Descending comparator of the source's second sort call
(`(a, b) => b.sourceRange[0] - a.sourceRange[0]`, a stable sort). -/
def srcGe (a b : Mapping) : Prop :=
  b.sourceRange.1 ≤ a.sourceRange.1

instance : DecidableRel srcLe := fun _ _ => Nat.decLe _ _

instance : DecidableRel srcGe := fun _ _ => Nat.decLe _ _

instance : IsTotal Mapping srcLe := ⟨fun _ _ => Nat.le_total _ _⟩

instance : IsTrans Mapping srcLe := ⟨fun _ _ _ => Nat.le_trans⟩

instance : IsTotal Mapping srcGe := ⟨fun _ _ => Nat.le_total _ _⟩

instance : IsTrans Mapping srcGe := ⟨fun _ _ _ h h' => Nat.le_trans h' h⟩

/-- The virtual-code range computation of the range branch (source lines
76–90): try the direct mapping; on failure sort the shared mapping array in
place — ascending for the first extremity, then descending for the second, so
the array is left descending — and, when the requested range strictly encloses
all mapped source text, fall back to
`[firstMapping.generatedRange[0], lastMapping.generatedRange[1]]`.
Returns the computed range together with the new contents of the shared
mapping array. -/
def computeVirtualCodeRange (ms : List Mapping) (s e : Nat) :
    Option (Nat × Nat) × List Mapping :=
  match toGeneratedRange ms (s, e) with
  | some r => (some r, ms)
  | none =>
    let asc := List.insertionSort srcLe ms
    let desc := List.insertionSort srcGe asc
    match asc.head?, desc.head? with
    | some fm, some lm =>
      if s < fm.sourceRange.1 ∧ lm.sourceRange.2 < e then
        (some (fm.generatedRange.1, lm.generatedRange.2), desc)
      else (none, desc)
    | _, _ => (none, desc)

/-- A virtual file: stable name, `documentFormatting` capability, and the
ordered list of directly embedded (child) virtual files. -/
inductive VFile where
  | mk (fileName : String) (cap : Cap) (embeddedFiles : List VFile) : VFile

/-- The stable name of a virtual file. -/
def VFile.fileName : VFile → String
  | .mk n _ _ => n

/-- The `documentFormatting` capability of a virtual file. -/
def VFile.cap : VFile → Cap
  | .mk _ c _ => c

/-- The directly embedded virtual files. -/
def VFile.embeddedFiles : VFile → List VFile
  | .mk _ _ cs => cs

mutual

/-- The depth of an embedding tree: `0` for a leaf root. -/
def VFile.depth : VFile → Nat
  | .mk _ _ cs => VFile.depthList cs

/-- One more than the largest depth of any member, `0` for `[]`. -/
def VFile.depthList : List VFile → Nat
  | [] => 0
  | c :: cs => max (c.depth + 1) (VFile.depthList cs)

end

/-- The level builder of `getEmbeddedFilesByLevel`: starting from the current
level's files, step down `l` more levels by replacing each file with its
embedded files. -/
def levelsAux : Nat → List VFile → List VFile
  | 0, cur => cur
  | l + 1, cur => levelsAux l (cur.flatMap VFile.embeddedFiles)

/-- `getEmbeddedFilesByLevel` from the source: the virtual files at
breadth-first depth `level` below (and including) `rootFile`.  The source
builds `embeddedFilesByLevel` imperatively, pushing the concatenation of the
previous level's `embeddedFiles` until the requested index exists; iterating
that step `level` times from `[rootFile]` is the same computation. -/
def getEmbeddedFilesByLevel (rootFile : VFile) (level : Nat) : List VFile :=
  levelsAux level [rootFile]

/-- Specification-side description of breadth-first levels: the (ordered) list
of descendants of `f` exactly `l` ownership edges below it. -/
def atDepth : Nat → VFile → List VFile
  | 0, f => [f]
  | l + 1, f => f.embeddedFiles.flatMap (atDepth l)

/-- Identifier of one `SourceMapWithDocuments` object held by the registry.
The mutable `mappings` array of the map is stored in `RegState`, keyed by this
identifier; the immutable parts live in `MapInfo`. -/
abbrev MapId := Nat

/-- The immutable data of one registry map: which outer (source) document it
belongs to and the embedded virtual document it targets. -/
structure MapInfo where
  sourceUri : String
  virtualDoc : TextDoc

/-- The request-relevant slice of `LanguageServicePluginContext` (document
registry, plugin list, configuration), all fixed for one request. -/
structure Ctx where
  plugins : List Plugin
  initialIndentLanguageId : String → Bool
  textDocument : Option TextDoc
  sourceRoot : Option VFile
  mapsByVirtualFileName : String → List MapId
  mapsByVirtualFileUri : String → List (Cap × MapId)
  mapInfo : MapId → MapInfo

/-- The registry state the request mutates: the persisted overlay snapshot of
the source document, and each map's shared `mappings` array (mutated in place
by the fallback's two `sort` calls). -/
structure RegState where
  snapshot : Str
  mappings : MapId → List Mapping

/-- `vscode.FormattingOptions` (the fields the source reads). -/
structure FmtOptions where
  tabSize : Nat
  insertSpaces : Bool

/-- Modelled after `getWellformedEdit` of `vscode-languageserver-textdocument`:
swap the range ends when reversed. -/
def wellformed (te : TextEdit) : TextEdit :=
  if te.range.1 ≤ te.range.2 then te else ⟨(te.range.2, te.range.1), te.newText⟩

/-- The right-to-left application pass of `TextDocument.applyEdits`: edits are
pre-sorted ascending by start and processed from the last one; an edit whose
end lies beyond the last modified offset throws `Overlapping edit`. -/
def applyEditsAux : List TextEdit → Str → Nat → Except String Str
  | [], text, _ => .ok text
  | e :: rest, text, lastModifiedOffset =>
    if e.range.2 ≤ lastModifiedOffset then
      applyEditsAux rest (text.take e.range.1 ++ e.newText ++ text.drop e.range.2) e.range.1
    else .error "Overlapping edit"

/-- Modelled after `TextDocument.applyEdits` of
`vscode-languageserver-textdocument`: stable-sort the edits by start position
and splice them into the text from right to left. -/
def applyEdits (text : Str) (edits : List TextEdit) : Except String Str :=
  let sorted := List.insertionSort (fun a b => a.range.1 ≤ b.range.1) (edits.map wellformed)
  applyEditsAux sorted.reverse text text.length

/-- The translation of a provider's edits back to outer coordinates (source
lines 104–112): an edit whose range fails to translate is dropped. -/
def translateEdits (ms : List Mapping) (ves : List TextEdit) : List TextEdit :=
  ves.filterMap fun te => (toSourceRange ms te.range).map fun r => ⟨r, te.newText⟩

/-- The orchestrator's per-level mutable data: the working outer document, the
`edited` flag, and the registry state. -/
structure LoopSt where
  document : TextDoc
  edited : Bool
  reg : RegState

/-- Processing of one embedded file inside a level (source lines 50–113):
check the capability, find the map whose source document is the current outer
document, compute the target (on-type position or range with fallback), run
`tryFormat`, and translate the returned edits to outer coordinates.  Returns
the new registry state (the fallback may have re-sorted the shared mapping
array), the translated edits, and the `toPatchIndentUris` contribution. -/
def processFile (ctx : Ctx) (doc : TextDoc) (s e : Nat)
    (onType? : Option (Nat × String)) (st : RegState) (f : VFile) :
    RegState × List TextEdit × List String :=
  if ¬ f.cap.truthy then (st, [], [])
  else
    match (ctx.mapsByVirtualFileName f.fileName).find?
        (fun id => (ctx.mapInfo id).sourceUri == doc.uri) with
    | none => (st, [], [])
    | some id =>
      match onType? with
      | some (pos, ch) =>
        match toGeneratedPosition (st.mappings id) pos with
        | none => (st, [], [])
        | some p =>
          match (tryFormat ctx.plugins (ctx.mapInfo id).virtualDoc (.position p ch)).2 with
          | none => (st, [], [])
          | some ves => (st, translateEdits (st.mappings id) ves, [])
      | none =>
        let r := computeVirtualCodeRange (st.mappings id) s e
        let st' : RegState := { st with mappings := fun j => if j = id then r.2 else st.mappings j }
        match r.1 with
        | none => (st', [], [])
        | some vr =>
          match (tryFormat ctx.plugins (ctx.mapInfo id).virtualDoc (.range vr)).2 with
          | none => (st', [], [])
          | some ves =>
            (st', translateEdits (st'.mappings id) ves, [(ctx.mapInfo id).virtualDoc.uri])

/-- The base indent unit: `options.insertSpaces ? ' '.repeat(options.tabSize) : '\t'`. -/
def baseIndentOf (opts : FmtOptions) : Str :=
  if opts.insertSpaces then List.replicate opts.tabSize ' ' else ['\t']

/-- The batch-application block the source uses twice (lines 115–120 and
137–142): when the edit list is nonempty, apply it to the working document,
advance the version, push the new text into the overlay snapshot, and set
`edited`; otherwise leave everything unchanged. -/
def applyBatch (doc : TextDoc) (edited : Bool) (reg : RegState)
    (edits : List TextEdit) : Except String LoopSt :=
  if edits.length > 0 then
    match applyEdits doc.text edits with
    | .error err => .error err
    | .ok newText =>
      .ok ⟨{ doc with version := doc.version + 1, text := newText },
        true, { reg with snapshot := newText }⟩
  else .ok ⟨doc, edited, reg⟩

/-- One iteration of the indentation-patch loop (source lines 128–143): run
`patchInterpolationIndent` for one registry map of a touched virtual file URI
and, when it produced edits, apply them, advance the document version, and
push the new text into the overlay snapshot. -/
def reflowStep (ctx : Ctx) (opts : FmtOptions) (ls : LoopSt) (p : Cap × MapId) :
    Except String LoopSt :=
  applyBatch ls.document ls.edited ls.reg
    (patchInterpolationIndent ls.document.text (ls.reg.mappings p.2)
      (if ctx.initialIndentLanguageId (ctx.mapInfo p.2).virtualDoc.languageId
        then baseIndentOf opts else [])
      p.1)

/-- The per-level accumulation over the level's files: thread the registry
state through `processFile` while concatenating the translated edits and the
touched URIs, in file order. -/
def levelFold (ctx : Ctx) (doc : TextDoc) (s e : Nat)
    (onType? : Option (Nat × String)) (files : List VFile)
    (acc : RegState × List TextEdit × List String) :
    RegState × List TextEdit × List String :=
  files.foldl
    (fun acc f =>
      let r := processFile ctx doc s e onType? acc.1 f
      (r.1, acc.2.1 ++ r.2.1, acc.2.2 ++ r.2.2))
    acc

/-- One iteration of the orchestrator's `while` loop for the files of level
`level` (source lines 47–145): process every file, apply the collected edits
as one batch (advancing document and overlay), and for levels `≥ 1` run the
indentation patch per touched URI and per registry map of that URI. -/
def levelStep (ctx : Ctx) (opts : FmtOptions) (s e : Nat)
    (onType? : Option (Nat × String)) (level : Nat) (files : List VFile)
    (ls : LoopSt) : Except String LoopSt :=
  let folded := levelFold ctx ls.document s e onType? files (ls.reg, [], [])
  match applyBatch ls.document ls.edited folded.1 folded.2.1 with
  | .error err => .error err
  | .ok ls1 =>
    if 1 ≤ level then
      (folded.2.2.flatMap ctx.mapsByVirtualFileUri).foldlM (reflowStep ctx opts) ls1
    else .ok ls1

/-- The orchestrator's `while (true)` loop, as a fuel-indexed recursion: query
the files of the current level, stop on an empty level, otherwise run the
level step and continue with the next level.  With fuel
`root.depth + 2 - level` the empty level is always reached first, so the fuel
never runs out (see the level-traversal theorem). -/
def formatLoop (ctx : Ctx) (opts : FmtOptions) (s e : Nat)
    (onType? : Option (Nat × String)) (root : VFile) :
    Nat → Nat → LoopSt → Except String LoopSt
  | 0, _, ls => .ok ls
  | fuel + 1, level, ls =>
    if (getEmbeddedFilesByLevel root level).length = 0 then .ok ls
    else
      match levelStep ctx opts s e onType? level (getEmbeddedFilesByLevel root level) ls with
      | .error err => .error err
      | .ok ls' => formatLoop ctx opts s e onType? root fuel (level + 1) ls'

/-- The registered request handler (the function returned by `register`):
resolve the document, default the range to the whole document, either
dispatch directly (no embedding tree) or run the level loop, restore the
overlay snapshot when something was edited, and return either nothing (text
unchanged) or one whole-document replace edit carrying the accumulated text.
The final registry state is returned alongside the result. -/
def register (ctx : Ctx) (opts : FmtOptions) (range? : Option (Nat × Nat))
    (onType? : Option (Nat × String)) (st : RegState) :
    Except String (Option (List TextEdit) × RegState) :=
  match ctx.textDocument with
  | none => .ok (none, st)
  | some document =>
    let range := range?.getD (0, document.text.length)
    match ctx.sourceRoot with
    | none =>
      match onType? with
      | some (pos, ch) => .ok ((tryFormat ctx.plugins document (.position pos ch)).2, st)
      | none => .ok ((tryFormat ctx.plugins document (.range range)).2, st)
    | some root =>
      match formatLoop ctx opts range.1 range.2 onType? root (root.depth + 2) 0
          ⟨document, false, st⟩ with
      | .error err => .error err
      | .ok ls =>
        let reg := if ls.edited then { ls.reg with snapshot := st.snapshot } else ls.reg
        if ls.document.text = document.text then .ok (none, reg)
        else .ok (some [⟨(0, document.text.length), ls.document.text⟩], reg)

/-- The first truthy provider result of a dispatch, in provider order: a
thrown error or a null result is skipped, the first returned edit list — empty
or not — wins. -/
def firstDefined : List ProviderResult → Option (List TextEdit)
  | [] => none
  | .edits es :: _ => some es
  | .throws _ :: rest => firstDefined rest
  | .noEdits :: rest => firstDefined rest

/-- The errors thrown by providers tried before the winning one. -/
def thrownBefore : List ProviderResult → List String
  | [] => []
  | .edits _ :: _ => []
  | .throws e :: rest => e :: thrownBefore rest
  | .noEdits :: rest => thrownBefore rest

/-- The outer document used by the small concrete dispatch scenarios. -/
def plainDoc : TextDoc :=
  ⟨"file:///d.txt", "txt", 0, ['a', 'b']⟩

/-- A provider that throws nothing and returns an empty edit list. -/
def emptyListPlugin : Plugin :=
  ⟨fun _ _ => .edits [], fun _ _ _ => .edits []⟩

/-- A provider that returns one real edit. -/
def oneEditPlugin : Plugin :=
  ⟨fun _ _ => .edits [⟨(0, 1), ['Z']⟩], fun _ _ _ => .noEdits⟩

/-- C4 counterexample: with an empty-list provider registered before a
provider holding a real edit, the dispatch returns the empty list — the first
defined result is used even though it is empty, so "the first non-empty one"
is not what the code selects. -/
theorem tryFormat_uses_first_defined_even_if_empty :
    tryFormat [emptyListPlugin, oneEditPlugin] plainDoc (.range (0, 1)) = ([], some [])
    ∧ pluginResult plainDoc (.range (0, 1)) oneEditPlugin = .edits [⟨(0, 1), ['Z']⟩]
    ∧ ([] : List TextEdit) ≠ [⟨(0, 1), ['Z']⟩] :=
  ⟨rfl, rfl, by decide⟩

/-- C4 (amended): dispatch tries the providers in registration order; every
provider before the winner that threw is logged and skipped, never aborting
the call; the result is exactly the first provider result that is defined
(non-null) — possibly an empty list — and results of different providers are
never merged. -/
theorem tryFormat_dispatch (plugins : List Plugin) (doc : TextDoc) (t : FmtTarget) :
    tryFormat plugins doc t =
      (thrownBefore (plugins.map (pluginResult doc t)),
       firstDefined (plugins.map (pluginResult doc t))) := by
  induction plugins with
  | nil => rfl
  | cons p ps ih =>
    simp only [tryFormat, List.map_cons]
    cases pluginResult doc t p <;> simp [firstDefined, thrownBefore, ih]

/-- C3 counterexample: with outer line indent `"  "`, nested indent `"  "`,
and mapping text `"function f() \x7b\n  return 1;\n\x7d"`, the reflow emits the
interior line with six leading spaces (base indent + nested indent prepended
to the line's existing two-space indent), not the four claimed by the spec. -/
theorem reflow_example_differs_from_spec :
    patchInterpolationIndent
      ("  function f() \x7b\n  return 1;\n\x7d").toList
      [⟨(2, 30), (0, 28)⟩] ("  ").toList (.bool true)
      = [⟨(2, 30), ("function f() \x7b\n      return 1;\n  \x7d").toList⟩]
    ∧ ("function f() \x7b\n      return 1;\n  \x7d").toList
      ≠ ("function f() \x7b\n    return 1;\n  \x7d").toList := by
  constructor
  · decide
  · decide

/-- C3 (amended): for the spec's reflow example the produced patched text is
`"function f() \x7b\n      return 1;\n  \x7d"`: the interior line gains
`baseIndent + nestedIndent` in front of its existing indentation, and the
final line is prefixed with `baseIndent` alone. -/
theorem reflow_example_actual :
    patchInterpolationIndent
      ("  function f() \x7b\n  return 1;\n\x7d").toList
      [⟨(2, 30), (0, 28)⟩] ("  ").toList (.bool true)
      = [⟨(2, 30), ("function f() \x7b\n      return 1;\n  \x7d").toList⟩] := by
  decide

/-- C8: translating a provider batch back to outer coordinates keeps, in
order, exactly the edits whose ranges translate: a failing edit is dropped
while every succeeding edit of the same batch is still included, and no
failure escapes (the translation is total). -/
theorem translateEdits_characterization (ms : List Mapping) (ves : List TextEdit) :
    translateEdits ms ves
      = ves.flatMap (fun te =>
          match toSourceRange ms te.range with
          | none => []
          | some r => [⟨r, te.newText⟩])
    ∧ (∀ te ∈ ves, ∀ r, toSourceRange ms te.range = some r →
        (⟨r, te.newText⟩ : TextEdit) ∈ translateEdits ms ves)
    ∧ (translateEdits ms ves).length
        = ves.countP (fun te => (toSourceRange ms te.range).isSome) := by
  refine ⟨?_, ?_, ?_⟩
  · induction ves with
    | nil => rfl
    | cons te rest ih =>
      simp only [translateEdits, List.filterMap_cons, List.flatMap_cons] at *
      cases h : toSourceRange ms te.range <;> simp [h, ih]
  · intro te hte r hr
    simp only [translateEdits, List.mem_filterMap]
    exact ⟨te, hte, by simp [hr]⟩
  · induction ves with
    | nil => rfl
    | cons te rest ih =>
      simp only [translateEdits, List.filterMap_cons, List.countP_cons] at *
      cases h : toSourceRange ms te.range <;> simp [h, ih]

/-- The depth of a virtual file is the depth over its embedded files. -/
theorem VFile.depth_eq (f : VFile) : f.depth = VFile.depthList f.embeddedFiles := by
  cases f
  rfl

/-- Stepping the level builder once is flat-mapping the spec-side level
function. -/
theorem levelsAux_eq_flatMap_atDepth : ∀ (l : Nat) (cur : List VFile),
    levelsAux l cur = cur.flatMap (atDepth l) := by
  intro l
  induction l with
  | zero =>
    intro cur
    simp [levelsAux, atDepth]
  | succ l ih =>
    intro cur
    show levelsAux l (cur.flatMap VFile.embeddedFiles) = _
    rw [ih, List.flatMap_assoc]
    rfl

/-- Membership bound for the depth of a file list. -/
theorem succ_le_depthList_iff (l : Nat) : ∀ (cs : List VFile),
    l + 1 ≤ VFile.depthList cs ↔ ∃ c ∈ cs, l ≤ c.depth := by
  intro cs
  induction cs with
  | nil => simp [VFile.depthList]
  | cons c cs ih =>
    show l + 1 ≤ max (c.depth + 1) (VFile.depthList cs) ↔ _
    rw [le_max_iff, ih]
    simp [Nat.succ_le_succ_iff]

/-- A level of the builder is nonempty exactly when some starting file is deep
enough. -/
theorem levelsAux_ne_nil_iff : ∀ (l : Nat) (cur : List VFile),
    levelsAux l cur ≠ [] ↔ ∃ f ∈ cur, l ≤ f.depth := by
  intro l
  induction l with
  | zero =>
    intro cur
    cases cur <;> simp [levelsAux]
  | succ l ih =>
    intro cur
    show levelsAux l (cur.flatMap VFile.embeddedFiles) ≠ [] ↔ _
    rw [ih]
    constructor
    · rintro ⟨g, hg, hd⟩
      rw [List.mem_flatMap] at hg
      obtain ⟨f, hf, hgf⟩ := hg
      refine ⟨f, hf, ?_⟩
      rw [VFile.depth_eq, succ_le_depthList_iff]
      exact ⟨g, hgf, hd⟩
    · rintro ⟨f, hf, hd⟩
      rw [VFile.depth_eq, succ_le_depthList_iff] at hd
      obtain ⟨g, hgf, hgd⟩ := hd
      exact ⟨g, List.mem_flatMap.mpr ⟨f, hf, hgf⟩, hgd⟩

/-- Levels strictly below the tree's depth bound are empty. -/
theorem getEmbeddedFilesByLevel_empty (root : VFile) (level : Nat)
    (h : root.depth < level) : getEmbeddedFilesByLevel root level = [] := by
  by_contra hne
  have := (levelsAux_ne_nil_iff level [root]).mp hne
  obtain ⟨f, hf, hd⟩ := this
  rw [List.mem_singleton] at hf
  subst hf
  omega

/-- With fuel at least `root.depth + 2 - level` the loop's result does not
depend on the fuel: the loop genuinely halts at the first empty level. -/
theorem formatLoop_fuel (ctx : Ctx) (opts : FmtOptions) (s e : Nat)
    (ot : Option (Nat × String)) (root : VFile) :
    ∀ (f1 f2 level : Nat) (ls : LoopSt),
      root.depth + 2 ≤ f1 + level → root.depth + 2 ≤ f2 + level →
      formatLoop ctx opts s e ot root f1 level ls
        = formatLoop ctx opts s e ot root f2 level ls := by
  intro f1
  induction f1 with
  | zero =>
    intro f2 level ls h1 h2
    have hempty : getEmbeddedFilesByLevel root level = [] :=
      getEmbeddedFilesByLevel_empty root level (by omega)
    cases f2 with
    | zero => rfl
    | succ f2 => simp [formatLoop, hempty]
  | succ f1 ih =>
    intro f2 level ls h1 h2
    cases f2 with
    | zero =>
      have hempty : getEmbeddedFilesByLevel root level = [] :=
        getEmbeddedFilesByLevel_empty root level (by omega)
      simp [formatLoop, hempty]
    | succ f2 =>
      show formatLoop ctx opts s e ot root (f1 + 1) level ls
          = formatLoop ctx opts s e ot root (f2 + 1) level ls
      rw [formatLoop, formatLoop]
      by_cases hlen : (getEmbeddedFilesByLevel root level).length = 0
      · simp [hlen]
      · simp only [hlen, if_false]
        cases levelStep ctx opts s e ot level (getEmbeddedFilesByLevel root level) ls with
        | error err => rfl
        | ok ls' => exact ih f2 (level + 1) ls' (by omega) (by omega)

/-- C9: the level query returns exactly the breadth-first level sets (level 0
being the root alone); a level is nonempty exactly up to the tree's depth `D`,
so the level-ById loop makes `D + 1` nonempty queries, halts on the first empty
level `D + 1`, and giving the loop any extra fuel beyond that point changes
nothing — the empty level is the sole and sufficient termination signal. -/
theorem level_traversal (root : VFile) :
    (∀ l, getEmbeddedFilesByLevel root l = atDepth l root)
    ∧ getEmbeddedFilesByLevel root 0 = [root]
    ∧ (∀ l, getEmbeddedFilesByLevel root l ≠ [] ↔ l ≤ root.depth)
    ∧ (∀ (ctx : Ctx) (opts : FmtOptions) (s e : Nat) (ot : Option (Nat × String))
        (ls : LoopSt) (k : Nat),
        formatLoop ctx opts s e ot root (root.depth + 2) 0 ls
          = formatLoop ctx opts s e ot root (root.depth + 2 + k) 0 ls) := by
  refine ⟨?_, ?_, ?_, ?_⟩
  · intro l
    rw [getEmbeddedFilesByLevel, levelsAux_eq_flatMap_atDepth]
    simp
  · rfl
  · intro l
    rw [getEmbeddedFilesByLevel, levelsAux_ne_nil_iff]
    simp
  · intro ctx opts s e ot ls k
    exact formatLoop_fuel ctx opts s e ot root _ _ 0 ls (by omega) (by omega)


/-- Processing one file never touches the overlay snapshot (it may only
re-sort a shared mapping array). -/
theorem processFile_snapshot (ctx : Ctx) (doc : TextDoc) (s e : Nat)
    (ot : Option (Nat × String)) (st : RegState) (f : VFile) :
    (processFile ctx doc s e ot st f).1.snapshot = st.snapshot := by
  unfold processFile
  dsimp only
  repeat' split
  all_goals rfl

/-- The per-level fold never touches the overlay snapshot. -/
theorem levelFold_snapshot (ctx : Ctx) (doc : TextDoc) (s e : Nat)
    (ot : Option (Nat × String)) :
    ∀ (files : List VFile) (acc : RegState × List TextEdit × List String),
      (levelFold ctx doc s e ot files acc).1.snapshot = acc.1.snapshot := by
  intro files
  induction files with
  | nil => intro acc; rfl
  | cons f fs ih =>
    intro acc
    show (levelFold ctx doc s e ot fs _).1.snapshot = _
    rw [ih]
    exact processFile_snapshot ctx doc s e ot acc.1 f

/-- Applying a batch either sets `edited` or leaves the snapshot alone. -/
theorem applyBatch_inv (snap0 : Str) (doc : TextDoc) (edited : Bool)
    (reg : RegState) (edits : List TextEdit) (ls' : LoopSt)
    (h : applyBatch doc edited reg edits = .ok ls')
    (hinv : edited = false → reg.snapshot = snap0) :
    ls'.edited = false → ls'.reg.snapshot = snap0 := by
  unfold applyBatch at h
  split at h
  · split at h
    · exact absurd h (by simp)
    · intro hfalse
      injection h with h
      rw [← h] at hfalse
      simp at hfalse
  · injection h with h
    intro hfalse
    rw [← h] at hfalse ⊢
    exact hinv hfalse

/-- A reflow step that leaves `edited` false leaves the snapshot alone. -/
theorem reflowStep_inv (snap0 : Str) (ctx : Ctx) (opts : FmtOptions)
    (ls ls2 : LoopSt) (p : Cap × MapId)
    (h : reflowStep ctx opts ls p = .ok ls2)
    (hinv : ls.edited = false → ls.reg.snapshot = snap0) :
    ls2.edited = false → ls2.reg.snapshot = snap0 :=
  applyBatch_inv snap0 ls.document ls.edited ls.reg _ ls2 h hinv

/-- The reflow fold preserves the "unedited means untouched snapshot"
invariant. -/
theorem reflowFold_inv (snap0 : Str) (ctx : Ctx) (opts : FmtOptions) :
    ∀ (pairs : List (Cap × MapId)) (ls ls' : LoopSt),
      pairs.foldlM (reflowStep ctx opts) ls = .ok ls' →
      (ls.edited = false → ls.reg.snapshot = snap0) →
      (ls'.edited = false → ls'.reg.snapshot = snap0) := by
  intro pairs
  induction pairs with
  | nil =>
    intro ls ls' h hinv
    injection h with h
    rw [← h]
    exact hinv
  | cons p ps ih =>
    intro ls ls' h hinv
    rw [List.foldlM_cons] at h
    cases hstep : reflowStep ctx opts ls p with
    | error err => rw [hstep] at h; cases h
    | ok ls2 =>
      rw [hstep] at h
      exact ih ls2 ls' h (reflowStep_inv snap0 ctx opts ls ls2 p hstep hinv)

/-- The level step preserves the "unedited means untouched snapshot"
invariant. -/
theorem levelStep_inv (snap0 : Str) (ctx : Ctx) (opts : FmtOptions) (s e : Nat)
    (ot : Option (Nat × String)) (level : Nat) (files : List VFile)
    (ls ls' : LoopSt) (h : levelStep ctx opts s e ot level files ls = .ok ls')
    (hinv : ls.edited = false → ls.reg.snapshot = snap0) :
    ls'.edited = false → ls'.reg.snapshot = snap0 := by
  unfold levelStep at h
  dsimp only at h
  cases hab : applyBatch ls.document ls.edited
      (levelFold ctx ls.document s e ot files (ls.reg, [], [])).1
      (levelFold ctx ls.document s e ot files (ls.reg, [], [])).2.1 with
  | error err => rw [hab] at h; cases h
  | ok ls1 =>
    rw [hab] at h
    dsimp only at h
    have hls1 : ls1.edited = false → ls1.reg.snapshot = snap0 :=
      applyBatch_inv snap0 ls.document ls.edited _ _ ls1 hab
        (fun hf => by rw [levelFold_snapshot]; exact hinv hf)
    split at h
    · exact reflowFold_inv snap0 ctx opts _ ls1 ls' h hls1
    · injection h with h
      rw [← h]
      exact hls1

/-- The whole loop preserves the "unedited means untouched snapshot"
invariant. -/
theorem formatLoop_inv (snap0 : Str) (ctx : Ctx) (opts : FmtOptions) (s e : Nat)
    (ot : Option (Nat × String)) (root : VFile) :
    ∀ (fuel level : Nat) (ls ls' : LoopSt),
      formatLoop ctx opts s e ot root fuel level ls = .ok ls' →
      (ls.edited = false → ls.reg.snapshot = snap0) →
      (ls'.edited = false → ls'.reg.snapshot = snap0) := by
  intro fuel
  induction fuel with
  | zero =>
    intro level ls ls' h hinv
    injection h with h
    rw [← h]
    exact hinv
  | succ fuel ih =>
    intro level ls ls' h hinv
    simp only [formatLoop] at h
    split at h
    · injection h with h
      rw [← h]
      exact hinv
    · split at h
      · cases h
      · rename_i ls1 hstep
        exact ih (level + 1) ls1 ls' h
          (levelStep_inv snap0 ctx opts s e ot level _ ls ls1 hstep hinv)


/-- C2: whenever the request returns (rather than propagating an exception),
the registry's persisted overlay snapshot equals its pre-request value — on
every return path, regardless of how many intermediate edit batches were
pushed into the overlay during the request. -/
theorem register_snapshot_restored (ctx : Ctx) (opts : FmtOptions)
    (range? : Option (Nat × Nat)) (onType? : Option (Nat × String))
    (st : RegState) (res : Option (List TextEdit)) (st' : RegState)
    (h : register ctx opts range? onType? st = .ok (res, st')) :
    st'.snapshot = st.snapshot := by
  unfold register at h
  split at h
  · injection h with h
    obtain ⟨h1, h2⟩ := Prod.mk.inj h
    rw [← h2]
  · rename_i document heq
    dsimp only at h
    split at h
    · split at h
      · injection h with h
        obtain ⟨h1, h2⟩ := Prod.mk.inj h
        rw [← h2]
      · injection h with h
        obtain ⟨h1, h2⟩ := Prod.mk.inj h
        rw [← h2]
    · rename_i root hroot
      split at h
      · cases h
      · rename_i ls hloop
        have hls : ls.edited = false → ls.reg.snapshot = st.snapshot :=
          formatLoop_inv st.snapshot ctx opts _ _ onType? root _ 0 _ ls hloop
            (fun _ => rfl)
        cases hedited : ls.edited with
        | true =>
          rw [hedited, if_pos rfl] at h
          split at h <;>
            (injection h with h; obtain ⟨h1, h2⟩ := Prod.mk.inj h; rw [← h2])
        | false =>
          rw [hedited, if_neg Bool.false_ne_true] at h
          split at h <;>
            (injection h with h; obtain ⟨h1, h2⟩ := Prod.mk.inj h; rw [← h2];
              exact hls hedited)

/-- C1: for a request on a document with an embedding tree that returns
normally, the result is determined by comparing the loop's accumulated
in-memory text with the original request-time text: equal means a genuinely
absent result, different means exactly one replace edit spanning the whole
original document and carrying the accumulated text. -/
theorem register_final_edit (ctx : Ctx) (opts : FmtOptions)
    (range? : Option (Nat × Nat)) (onType? : Option (Nat × String))
    (st : RegState) (doc : TextDoc) (root : VFile)
    (res : Option (List TextEdit)) (st' : RegState)
    (hdoc : ctx.textDocument = some doc) (hroot : ctx.sourceRoot = some root)
    (h : register ctx opts range? onType? st = .ok (res, st')) :
    ∃ ls : LoopSt,
      formatLoop ctx opts (range?.getD (0, doc.text.length)).1
          (range?.getD (0, doc.text.length)).2 onType? root (root.depth + 2) 0
          ⟨doc, false, st⟩ = .ok ls
      ∧ ((ls.document.text = doc.text ∧ res = none)
          ∨ (ls.document.text ≠ doc.text
              ∧ res = some [⟨(0, doc.text.length), ls.document.text⟩])) := by
  unfold register at h
  rw [hdoc] at h
  dsimp only at h
  rw [hroot] at h
  dsimp only at h
  cases hloop : formatLoop ctx opts (range?.getD (0, doc.text.length)).1
      (range?.getD (0, doc.text.length)).2 onType? root (root.depth + 2) 0
      ⟨doc, false, st⟩ with
  | error err => rw [hloop] at h; cases h
  | ok ls =>
    rw [hloop] at h
    dsimp only at h
    refine ⟨ls, rfl, ?_⟩
    by_cases htext : ls.document.text = doc.text
    · rw [if_pos htext] at h
      injection h with h
      obtain ⟨h1, h2⟩ := Prod.mk.inj h
      exact Or.inl ⟨htext, h1.symm⟩
    · rw [if_neg htext] at h
      injection h with h
      obtain ⟨h1, h2⟩ := Prod.mk.inj h
      exact Or.inr ⟨htext, h1.symm⟩

/-- An outer document with an embedding tree but an inert root, used by the
C1/C2 witnesses. -/
def trivialDoc : TextDoc :=
  ⟨"file:///w.vue", "vue", 0, ['a']⟩

/-- A one-node embedding tree whose root has no formatting capability. -/
def trivialRoot : VFile :=
  .mk "w.vue" .undef []

/-- A registry whose only source is `trivialDoc` with root `trivialRoot`. -/
def trivialCtx : Ctx :=
  ⟨[], fun _ => false, some trivialDoc, some trivialRoot, fun _ => [],
    fun _ => [], fun _ => ⟨"file:///w.vue", trivialDoc⟩⟩

/-- The pre-request registry state of the trivial scenario. -/
def trivialSt : RegState :=
  ⟨['a'], fun _ => []⟩

/-- C1 witness: the trivial embedded-tree request returns normally with an
absent result, matching the theorem's first disjunct. -/
theorem register_final_edit_witness :
    ∃ ls : LoopSt,
      formatLoop trivialCtx ⟨2, true⟩
          (((none : Option (Nat × Nat)).getD (0, trivialDoc.text.length)).1)
          (((none : Option (Nat × Nat)).getD (0, trivialDoc.text.length)).2)
          none trivialRoot (trivialRoot.depth + 2) 0
          ⟨trivialDoc, false, trivialSt⟩ = .ok ls
      ∧ ((ls.document.text = trivialDoc.text ∧ (none : Option (List TextEdit)) = none)
          ∨ (ls.document.text ≠ trivialDoc.text
              ∧ (none : Option (List TextEdit))
                  = some [⟨(0, trivialDoc.text.length), ls.document.text⟩])) :=
  register_final_edit trivialCtx ⟨2, true⟩ none none trivialSt trivialDoc
    trivialRoot none trivialSt rfl rfl rfl

/-- C2 witness: the trivial embedded-tree request returns normally and the
final registry snapshot equals the pre-request snapshot. -/
theorem register_snapshot_restored_witness :
    register trivialCtx ⟨2, true⟩ none none trivialSt = .ok (none, trivialSt)
    ∧ trivialSt.snapshot = trivialSt.snapshot :=
  ⟨rfl,
    register_snapshot_restored trivialCtx ⟨2, true⟩ none none trivialSt none
      trivialSt rfl⟩

/-- The head of an insertion sort is related to every input element. -/
theorem head_insertionSort_rel {r : Mapping → Mapping → Prop} [DecidableRel r]
    [IsTotal Mapping r] [IsTrans Mapping r] (ms : List Mapping) (fm : Mapping)
    (h : (List.insertionSort r ms).head? = some fm) :
    ∀ m ∈ ms, r fm m := by
  intro m hm
  have hmem := (List.mem_insertionSort r).mpr hm
  have hs := List.sorted_insertionSort r ms
  cases hsort : List.insertionSort r ms with
  | nil => rw [hsort] at hmem; cases hmem
  | cons a tail =>
    rw [hsort] at h hmem hs
    injection h with h
    subst h
    rcases List.mem_cons.mp hmem with rfl | hmem
    · rcases total_of r m m with h' | h' <;> exact h'
    · exact (List.sorted_cons.mp hs).1 m hmem

/-- C6 (amended): when the direct mapping of the requested range fails, the
region is formatted over the generated span
`(firstMapping.generatedRange[0], lastMapping.generatedRange[1])` if and only
if the mapping set is nonempty, the requested range starts strictly before the
source-start of `firstMapping` — the mapping with the smallest source-start —
and ends strictly after the source-end of `lastMapping` — the mapping with the
largest source-start.  The restriction to whole-document requests claimed by
the specification does not exist: any enclosing range triggers the fallback
(see the counterexample). -/
theorem fallback_characterization (ms : List Mapping) (s e : Nat)
    (hdirect : toGeneratedRange ms (s, e) = none) :
    (∀ r, (computeVirtualCodeRange ms s e).1 = some r ↔
        ∃ fm lm, (List.insertionSort srcLe ms).head? = some fm
          ∧ (List.insertionSort srcGe (List.insertionSort srcLe ms)).head? = some lm
          ∧ s < fm.sourceRange.1 ∧ lm.sourceRange.2 < e
          ∧ r = (fm.generatedRange.1, lm.generatedRange.2))
    ∧ (∀ fm, (List.insertionSort srcLe ms).head? = some fm →
        ∀ m ∈ ms, fm.sourceRange.1 ≤ m.sourceRange.1)
    ∧ (∀ lm, (List.insertionSort srcGe (List.insertionSort srcLe ms)).head? = some lm →
        ∀ m ∈ ms, m.sourceRange.1 ≤ lm.sourceRange.1) := by
  refine ⟨?_, ?_, ?_⟩
  · intro r
    unfold computeVirtualCodeRange
    rw [hdirect]
    dsimp only
    split
    · rename_i fm lm hasc hdesc
      split
      · rename_i hcond
        constructor
        · intro hr
          injection hr with hr
          exact ⟨fm, lm, hasc, hdesc, hcond.1, hcond.2, hr.symm⟩
        · rintro ⟨fm', lm', hasc', hdesc', h1, h2, rfl⟩
          rw [hasc] at hasc'
          rw [hdesc] at hdesc'
          injection hasc' with hasc'
          injection hdesc' with hdesc'
          rw [hasc', hdesc']
      · rename_i hcond
        constructor
        · intro hr
          cases hr
        · rintro ⟨fm', lm', hasc', hdesc', h1, h2, rfl⟩
          rw [hasc] at hasc'
          rw [hdesc] at hdesc'
          injection hasc' with hasc'
          injection hdesc' with hdesc'
          subst hasc'
          subst hdesc'
          exact absurd ⟨h1, h2⟩ hcond
    · rename_i hnotboth
      constructor
      · intro hr
        cases hr
      · rintro ⟨fm', lm', hasc', hdesc', h1, h2, rfl⟩
        exact absurd (hnotboth fm' lm' hasc' hdesc') not_false
  · intro fm h m hm
    exact head_insertionSort_rel ms fm h m hm
  · intro lm h m hm
    exact head_insertionSort_rel (List.insertionSort srcLe ms) lm h m
      ((List.mem_insertionSort srcLe).mpr hm)

/-- Observation of a request outcome: the returned edits, or `none` when an
exception propagated. -/
def regRes (r : Except String (Option (List TextEdit) × RegState)) :
    Option (Option (List TextEdit)) :=
  match r with
  | .error _ => none
  | .ok (res, _) => some res

/-- Observation of a request outcome including the final registry state at
one map: returned edits, final snapshot, final mapping array. -/
def regObs (r : Except String (Option (List TextEdit) × RegState)) (id : MapId) :
    Option (Option (List TextEdit) × Str × List Mapping) :=
  match r with
  | .error _ => none
  | .ok (res, st) => some (res, st.snapshot, st.mappings id)

/-- The outer document text of the C6 counterexample scenario. -/
def docC6 : Str := ("aabbbbbbcc").toList

/-- The single mapping of the C6 scenario's embedded region. -/
def mC6 : Mapping := ⟨(3, 7), (0, 4)⟩

/-- The embedding tree of the C6 scenario: an inert root with one formattable
embedded file. -/
def rootC6 : VFile := .mk "a.vue" (.bool false) [.mk "c.ts" (.bool true) []]

/-- The registry of the C6 scenario; its only provider answers exactly on the
fallback generated range `(0, 4)`. -/
def ctxC6 : Ctx :=
  ⟨[⟨fun _ r => if r = (0, 4) then .edits [⟨(0, 4), ("ZZZZ").toList⟩] else .noEdits,
      fun _ _ _ => .noEdits⟩],
   fun _ => false,
   some ⟨"file:///a.vue", "vue", 0, docC6⟩,
   some rootC6,
   fun n => if n = "c.ts" then [0] else [],
   fun u => if u = "file:///c.ts" then [(.bool true, 0)] else [],
   fun _ => ⟨"file:///a.vue", ⟨"file:///c.ts", "ts", 0, []⟩⟩⟩

/-- The pre-request registry state of the C6 scenario. -/
def stC6 : RegState := ⟨docC6, fun _ => [mC6]⟩

/-- C6 counterexample: a range request over `(1, 9)` on a ten-character
document — not a whole-document request — fails direct mapping, and the
fallback still fires: the region is formatted over the fallback generated
range and the request returns the corresponding edit.  The fallback is
therefore not reserved to whole-document range requests. -/
theorem fallback_used_for_non_whole_document_range :
    toGeneratedRange [mC6] (1, 9) = none
    ∧ (1, 9) ≠ (0, docC6.length)
    ∧ regRes (register ctxC6 ⟨2, true⟩ (some (1, 9)) none stC6)
        = some (some [⟨(0, 10), ("aabZZZZbcc").toList⟩]) := by
  refine ⟨rfl, by decide, by decide⟩

/-- C6 witness for the amended characterization, at the C6 scenario's mapping
with the enclosing non-whole-document range. -/
theorem fallback_characterization_witness :
    toGeneratedRange [mC6] (1, 9) = none
    ∧ (computeVirtualCodeRange [mC6] 1 9).1 = some (0, 4) :=
  ⟨rfl, by
    have h := (fallback_characterization [mC6] 1 9 rfl).1 (0, 4)
    exact h.mpr ⟨mC6, mC6, rfl, rfl, by decide, by decide, rfl⟩⟩

/-- The outer document text of the C5 counterexample scenario. -/
def docC5 : Str := ("  u\nv\nw\nz").toList

/-- The embedding tree of the C5 scenario. -/
def rootC5 : VFile := .mk "a.vue" (.bool false) [.mk "b.ts" (.bool true) []]

/-- The registry of the C5 scenario: the virtual file `b.ts` has two maps —
map 1 against the current outer document and map 2 against a different outer
document (`OTHER.vue`), both registered under the same virtual file URI. -/
def ctxC5 : Ctx :=
  ⟨[⟨fun _ _ => .edits [], fun _ _ _ => .noEdits⟩],
   fun _ => false,
   some ⟨"file:///a.vue", "vue", 0, docC5⟩,
   some rootC5,
   fun n => if n = "b.ts" then [1, 2] else [],
   fun u => if u = "file:///b.ts" then [(.bool true, 1), (.bool true, 2)] else [],
   fun id =>
     if id = 2 then ⟨"file:///OTHER.vue", ⟨"file:///b.ts", "ts", 0, []⟩⟩
     else ⟨"file:///a.vue", ⟨"file:///b.ts", "ts", 0, []⟩⟩⟩

/-- The C5 registry with the foreign map removed from the by-URI index. -/
def ctxC5' : Ctx :=
  { ctxC5 with
    mapsByVirtualFileUri := fun u =>
      if u = "file:///b.ts" then [(.bool true, 1)] else [] }

/-- The C5 registry with every map's outer-document association renamed. -/
def ctxC5b : Ctx :=
  { ctxC5 with
    mapInfo := fun id => ⟨"file:///ELSEWHERE.vue", (ctxC5.mapInfo id).virtualDoc⟩ }

/-- The pre-request registry state of the C5 scenario: map 1 covers the whole
outer document identically; map 2 (belonging to the other outer document)
covers offsets `(2, 7)`. -/
def stC5 : RegState :=
  ⟨docC5, fun id =>
    if id = 1 then [⟨(0, 9), (0, 9)⟩]
    else if id = 2 then [⟨(2, 7), (0, 5)⟩] else []⟩

/-- C5 counterexample: the indentation reflow consults every mapping set
registered under the touched virtual file URI, including the one held against
a different outer document: with the foreign map present the request returns
an edit produced from the foreign mapping set, and with it removed the same
request returns no edits. -/
theorem reflow_uses_foreign_mapping_set :
    (ctxC5.mapInfo 2).sourceUri ≠ "file:///a.vue"
    ∧ regRes (register ctxC5 ⟨2, true⟩ none none stC5)
        = some (some [⟨(0, 9), ("  u\n  v\n  w\nz").toList⟩])
    ∧ regRes (register ctxC5' ⟨2, true⟩ none none stC5) = some none := by
  refine ⟨by decide, by decide, by decide⟩

/-- C5 (amended): the reflow phase of a level runs over every registry map of
each touched virtual file URI and never consults which outer document a
mapping set is associated with — its result is invariant under arbitrary
changes of the maps' source-document URIs. -/
theorem reflow_ignores_outer_document_association (ctx ctx' : Ctx)
    (opts : FmtOptions)
    (hv : ∀ id, (ctx.mapInfo id).virtualDoc = (ctx'.mapInfo id).virtualDoc)
    (hi : ctx.initialIndentLanguageId = ctx'.initialIndentLanguageId)
    (hm : ctx.mapsByVirtualFileUri = ctx'.mapsByVirtualFileUri) :
    ∀ (toPatch : List String) (ls : LoopSt),
      (toPatch.flatMap ctx.mapsByVirtualFileUri).foldlM (reflowStep ctx opts) ls
        = (toPatch.flatMap ctx'.mapsByVirtualFileUri).foldlM
            (reflowStep ctx' opts) ls := by
  have hstep : ∀ (ls : LoopSt) (p : Cap × MapId),
      reflowStep ctx opts ls p = reflowStep ctx' opts ls p := by
    intro ls p
    unfold reflowStep
    rw [hi, hv p.2]
  intro toPatch ls
  rw [← hm]
  generalize toPatch.flatMap ctx.mapsByVirtualFileUri = pairs
  induction pairs generalizing ls with
  | nil => rfl
  | cons p ps ih =>
    rw [List.foldlM_cons, List.foldlM_cons, hstep]
    cases reflowStep ctx' opts ls p with
    | error err => rfl
    | ok ls2 => exact ih ls2

/-- C5 amended-theorem witness: renaming every source-document URI of the C5
registry leaves the reflow fold's result unchanged on a concrete state. -/
theorem reflow_ignores_outer_document_association_witness :
    ((["file:///b.ts"].flatMap ctxC5.mapsByVirtualFileUri).foldlM
        (reflowStep ctxC5 ⟨2, true⟩)
        ⟨⟨"file:///a.vue", "vue", 0, docC5⟩, false, stC5⟩)
      = ((["file:///b.ts"].flatMap ctxC5b.mapsByVirtualFileUri).foldlM
        (reflowStep ctxC5b ⟨2, true⟩)
        ⟨⟨"file:///a.vue", "vue", 0, docC5⟩, false, stC5⟩) :=
  reflow_ignores_outer_document_association ctxC5 ctxC5b ⟨2, true⟩
    (fun _ => rfl) rfl rfl ["file:///b.ts"]
    ⟨⟨"file:///a.vue", "vue", 0, docC5⟩, false, stC5⟩

/-- The outer document text of the C10 scenario. -/
def docC10 : Str := ("ABu\n  v\nwxCDp\n  q\nrsEFG").toList

/-- The earlier mapping (smaller source-start) of the C10 scenario. -/
def m1C10 : Mapping := ⟨(2, 10), (0, 8)⟩

/-- The later mapping (larger source-start) of the C10 scenario. -/
def m2C10 : Mapping := ⟨(12, 20), (8, 16)⟩

/-- The embedding tree of the C10 scenario. -/
def rootC10 : VFile := .mk "a.vue" (.bool false) [.mk "a.vue.ts" (.bool true) []]

/-- The registry of the C10 scenario; the embedded file asks for a first
newline insertion during reflow, which targets the mapping the reflow sees
first in the shared array. -/
def ctxC10 : Ctx :=
  ⟨[⟨fun _ _ => .edits [], fun _ _ _ => .noEdits⟩],
   fun _ => false,
   some ⟨"file:///a.vue", "vue", 0, docC10⟩,
   some rootC10,
   fun n => if n = "a.vue.ts" then [0] else [],
   fun u => if u = "file:///a.vue.ts" then [(.obj true false, 0)] else [],
   fun _ => ⟨"file:///a.vue", ⟨"file:///a.vue.ts", "typescript", 0, []⟩⟩⟩

/-- The pre-request registry state of the C10 scenario: the shared mapping
array starts in ascending source order. -/
def stC10 : RegState := ⟨docC10, fun _ => [m1C10, m2C10]⟩

/-- C10: a range request whose direct mapping fails sorts the shared mapping
array in place, leaving it in descending source-start order after the
request — the overlay restore only rewinds the snapshot, not the array — and
the same request's reflow pass already sees the reordered array, so the
first-mapping newline insertion lands on the mapping with the largest
source-start (the emitted edit rewrites range `(12, 20)`, not `(2, 10)`),
which differs from what the original ascending array would produce. -/
theorem fallback_sort_mutation_persists :
    regObs (register ctxC10 ⟨2, true⟩ none none stC10) 0
      = some (some [⟨(0, 23), ("ABu\n  v\nwxCD\np\n  q\nrsEFG").toList⟩],
          docC10, [m2C10, m1C10])
    ∧ [m2C10, m1C10] ≠ [m1C10, m2C10]
    ∧ patchInterpolationIndent docC10 [m1C10, m2C10] [] (.obj true false)
        = [⟨(2, 10), ("\nu\n  v\nwx").toList⟩]
    ∧ patchInterpolationIndent docC10 [m2C10, m1C10] [] (.obj true false)
        = [⟨(12, 20), ("\np\n  q\nrs").toList⟩] := by
  refine ⟨by decide, by decide, by decide, by decide⟩

/-- The newline insertions preserve the presence of a line break. -/
theorem mem_insertedNewlines (oldText : Str) (iF iL : Bool) (i count : Nat)
    (h : '\n' ∈ oldText) : '\n' ∈ insertedNewlines oldText iF iL i count := by
  unfold insertedNewlines
  dsimp only
  split_ifs <;> simp [h]

/-- Splitting never yields an empty list of lines. -/
theorem splitOnChar_ne_nil (c : Char) : ∀ s : Str, splitOnChar c s ≠ [] := by
  intro s
  induction s with
  | nil => simp [splitOnChar]
  | cons x xs ih =>
    unfold splitOnChar
    cases hr : splitOnChar c xs with
    | nil => exact absurd hr ih
    | cons l ls =>
      dsimp only
      split <;> simp

/-- A text containing the separator splits into at least two lines. -/
theorem splitOnChar_length_ge_two (c : Char) :
    ∀ s : Str, c ∈ s → 2 ≤ (splitOnChar c s).length := by
  intro s
  induction s with
  | nil => intro h; cases h
  | cons x xs ih =>
    intro h
    unfold splitOnChar
    cases hr : splitOnChar c xs with
    | nil => exact absurd hr (splitOnChar_ne_nil c xs)
    | cons l ls =>
      dsimp only
      rcases List.mem_cons.mp h with rfl | hmem
      · rw [if_pos rfl]
        simp
      · have h2 := ih hmem
        rw [hr] at h2
        split
        · simp
        · simp only [List.length_cons] at h2 ⊢
          omega

/-- The reflow transform as the specification words it, for the lines after
the first: every interior non-empty line is prefixed with
`baseIndent ++ nestedIndent`, and the final line with `baseIndent` alone. -/
def specReindentTail (base nested : Str) : List Str → List Str
  | [] => []
  | [last] => [base ++ last]
  | line :: rest => (if line = [] then line else base ++ nested ++ line) :: specReindentTail base nested rest

/-- The indexed loop of the source computes the specification's description
of the non-first lines. -/
theorem mapWithIndex_reindent_spec (base nested : Str) (k : Nat) :
    ∀ (rest : List Str) (i : Nat), i ≠ 0 → i + rest.length = k →
      mapWithIndex (reindentLine base nested k) i rest
        = specReindentTail base nested rest := by
  intro rest
  induction rest with
  | nil => intro i h1 h2; rfl
  | cons line rest ih =>
    intro i h1 h2
    cases rest with
    | nil =>
      show [reindentLine base nested k i line] = [base ++ line]
      unfold reindentLine
      rw [if_pos (by simp at h2; omega)]
    | cons l2 rest2 =>
      show reindentLine base nested k i line
          :: mapWithIndex (reindentLine base nested k) (i + 1) (l2 :: rest2) = _
      rw [ih (i + 1) (by omega) (by simp at h2 ⊢; omega)]
      show _ = (if line = [] then line else base ++ nested ++ line)
          :: specReindentTail base nested (l2 :: rest2)
      congr 1
      unfold reindentLine
      rw [if_neg (by simp at h2; omega), if_neg h1]
      by_cases hl : line = []
      · rw [if_neg (by simpa using hl), if_pos hl]
      · rw [if_pos hl, if_neg hl]

/-- For at least two lines, the source's whole-line loop equals: first line
unchanged, then the specification's tail transform. -/
theorem reindentLines_eq_spec (base nested : Str) (first : Str)
    (rest : List Str) (h : rest ≠ []) :
    reindentLines base nested (first :: rest)
      = first :: specReindentTail base nested rest := by
  unfold reindentLines
  show reindentLine base nested (first :: rest).length 0 first
      :: mapWithIndex (reindentLine base nested (first :: rest).length) 1 rest = _
  rw [mapWithIndex_reindent_spec base nested (first :: rest).length rest 1
    one_ne_zero (by simp; omega)]
  congr 1
  unfold reindentLine
  rw [if_neg ?_, if_pos rfl]
  cases rest with
  | nil => exact absurd rfl h
  | cons _ _ => simp

/-- C7: per mapping, the reflow skips texts without a line break; otherwise,
after the optional first/final newline insertions, the split text is rewritten
with every interior non-empty line prefixed by `baseIndent ++ nestedIndent`
and the final line prefixed by `baseIndent` alone, and a replace edit over the
mapping's source range is emitted exactly when the rewritten text differs from
the original. -/
theorem patchMapping_reflow (docText initialIndent : Str) (iF iL : Bool)
    (count i : Nat) (m : Mapping) :
    ('\n' ∉ subStr docText m.sourceRange.1 m.sourceRange.2 →
      patchMapping docText count initialIndent iF iL i m = none)
    ∧ ('\n' ∈ subStr docText m.sourceRange.1 m.sourceRange.2 →
        ∀ (first : Str) (rest : List Str),
          splitOnChar '\n'
              (insertedNewlines (subStr docText m.sourceRange.1 m.sourceRange.2)
                iF iL i count)
            = first :: rest →
          patchMapping docText count initialIndent iF iL i m =
            (let newText := List.intercalate ['\n']
                (first :: specReindentTail
                  (getBaseIndent docText m.sourceRange.1) initialIndent rest)
             if newText = subStr docText m.sourceRange.1 m.sourceRange.2 then none
             else some ⟨(m.sourceRange.1, m.sourceRange.2), newText⟩)) := by
  constructor
  · intro h
    unfold patchMapping
    dsimp only
    rw [if_pos h]
  · intro h first rest hsplit
    have hmem := mem_insertedNewlines _ iF iL i count h
    have hlen := splitOnChar_length_ge_two '\n' _ hmem
    rw [hsplit] at hlen
    have hrest : rest ≠ [] := by
      cases rest with
      | nil => simp at hlen
      | cons _ _ => simp
    unfold patchMapping
    dsimp only
    rw [if_neg (by simpa using h), hsplit,
      reindentLines_eq_spec _ _ first rest hrest]
    by_cases heq : List.intercalate ['\n']
        (first :: specReindentTail (getBaseIndent docText m.sourceRange.1)
          initialIndent rest)
        = subStr docText m.sourceRange.1 m.sourceRange.2
    · rw [if_neg (by simpa using heq), if_pos heq]
    · rw [if_pos (by simpa using heq), if_neg heq]

/-- C7 witness: the per-mapping reflow characterization evaluated on a small
two-line mapping text. -/
theorem patchMapping_reflow_witness :
    '\n' ∈ subStr ("ab\ncd").toList 0 5
    ∧ patchMapping ("ab\ncd").toList 1 [] false false 0 ⟨(0, 5), (0, 5)⟩ =
        (let newText := List.intercalate ['\n']
            (("ab").toList
              :: specReindentTail (getBaseIndent ("ab\ncd").toList 0) []
                  [("cd").toList])
         if newText = subStr ("ab\ncd").toList 0 5 then none
         else some ⟨(0, 5), newText⟩) :=
  ⟨by decide,
    (patchMapping_reflow ("ab\ncd").toList [] false false 1 0
        ⟨(0, 5), (0, 5)⟩).2 (by decide) (("ab").toList) [("cd").toList]
      (by decide)⟩

/-- C8 witness: a concretely translating edit of a batch is a member of the
translated batch. -/
theorem translateEdits_characterization_witness :
    (⟨(3, 7), ("X").toList⟩ : TextEdit)
      ∈ translateEdits [mC6] [⟨(0, 4), ("X").toList⟩] :=
  (translateEdits_characterization [mC6] [⟨(0, 4), ("X").toList⟩]).2.1
    ⟨(0, 4), ("X").toList⟩ (by decide) (3, 7) (by decide)

/-- A depth-one embedding tree used by the C9 witness. -/
def wTree : VFile := .mk "r.vue" .undef [.mk "c.ts" .undef []]

/-- C9 witness: the traversal facts at a concrete depth-one tree — level 0 is
the root, level 1 matches the breadth-first description, nonemptiness stops at
the depth, and extra loop fuel changes nothing. -/
theorem level_traversal_witness :
    getEmbeddedFilesByLevel wTree 0 = [wTree]
    ∧ getEmbeddedFilesByLevel wTree 1 = atDepth 1 wTree
    ∧ (getEmbeddedFilesByLevel wTree 1 ≠ [] ↔ 1 ≤ wTree.depth)
    ∧ formatLoop trivialCtx ⟨2, true⟩ 0 1 none wTree (wTree.depth + 2) 0
        ⟨trivialDoc, false, trivialSt⟩
      = formatLoop trivialCtx ⟨2, true⟩ 0 1 none wTree (wTree.depth + 2 + 5) 0
        ⟨trivialDoc, false, trivialSt⟩ := by
  have h := level_traversal wTree
  exact ⟨h.2.1, h.1 1, h.2.2.1 1,
    h.2.2.2 trivialCtx ⟨2, true⟩ 0 1 none ⟨trivialDoc, false, trivialSt⟩ 5⟩
